import Mathlib

/-! Table rendering of builds and steps (`action/build/table.go`, `action/step/table.go`).

A shallow embedding of the two table renderers of the CLI: the `reverse` helper
(a stable sort by number), the step `duration` helper, and the narrow and wide
`table` / `wideTable` functions of the `build` and `step` packages.

Go slices are lists, Go `int` / `int64` values are integers (`Int`) with the
two's-complement wrap made explicit where the arithmetic can overflow, and an
unset pointer field of a library value is `none`.
-/

set_option autoImplicit false

/-! ## The library values (`github.com/go-vela/types/library`) -/

namespace library

/-- The fields of `library.Build` that the table renderers read. Every field is a
pointer in Go; `none` is the nil pointer. -/
structure Build where
  Number : Option Int := none
  Status : Option String := none
  Event : Option String := none
  Branch : Option String := none
  Commit : Option String := none
  Author : Option String := none
  Created : Option Int := none
  Started : Option Int := none
  Finished : Option Int := none
deriving DecidableEq, Repr

/-- The fields of `library.Step` that the table renderers read. -/
structure Step where
  Number : Option Int := none
  Name : Option String := none
  Status : Option String := none
  Created : Option Int := none
  Started : Option Int := none
  Finished : Option Int := none
deriving DecidableEq, Repr

/-- The getter `GetNumber`: the zero value when the field is unset. -/
def Build.GetNumber (b : Build) : Int := b.Number.getD 0
def Build.GetStatus (b : Build) : String := b.Status.getD ""
def Build.GetEvent (b : Build) : String := b.Event.getD ""
def Build.GetBranch (b : Build) : String := b.Branch.getD ""
def Build.GetCommit (b : Build) : String := b.Commit.getD ""
def Build.GetAuthor (b : Build) : String := b.Author.getD ""
def Build.GetCreated (b : Build) : Int := b.Created.getD 0
def Build.GetStarted (b : Build) : Int := b.Started.getD 0
def Build.GetFinished (b : Build) : Int := b.Finished.getD 0

def Step.GetNumber (s : Step) : Int := s.Number.getD 0
def Step.GetName (s : Step) : String := s.Name.getD ""
def Step.GetStatus (s : Step) : String := s.Status.getD ""
def Step.GetCreated (s : Step) : Int := s.Created.getD 0
def Step.GetStarted (s : Step) : Int := s.Started.getD 0
def Step.GetFinished (s : Step) : Int := s.Finished.getD 0

end library

/-! ## `sort.SliceStable`

The standard library sorts a slice of at most twenty elements by insertion sort
and merges insertion-sorted blocks of twenty for longer slices. A stable sort by
a strict weak order has exactly one result, so the insertion sort below stands
for the whole routine (see `sort.SliceStable_unique`). -/

namespace sort

variable {α : Type}

/-- The inner loop of the insertion sort: `x` sits to the right of the already
sorted prefix and is swapped leftwards while `less x (its left neighbour)`.
The prefix is held reversed, its last element first. -/
def sink (less : α → α → Bool) (x : α) : List α → List α
  | [] => [x]
  | y :: ys => if less x y then y :: sink less x ys else x :: y :: ys

/-- The outer loop: the elements enter the sorted prefix from left to right. -/
def insertionSort (less : α → α → Bool) (data : List α) : List α :=
  (data.foldl (fun front x => sink less x front) []).reverse

/-- Model of `sort.SliceStable(x, less)`: the slice after the call. -/
def SliceStable (x : List α) (less : α → α → Bool) : List α :=
  insertionSort less x

/-- The shape of the comparison both `reverse` helpers pass to
`sort.SliceStable`: the order of an integer key. -/
def lessBy (key : α → Int) : α → α → Bool := fun x y => decide (key x < key y)

end sort

/-! ## The `time` package

`time.Unix`, `Time.Sub`, `Time.Add` and `Duration.String` of the standard
library, on the times the renderers build: wall-clock values without a
monotonic reading and with a zero nanosecond part coming from `time.Unix(sec, 0)`.
An `int64` is an `Int` kept in range by `wrap64`. -/

namespace time

/-- Two's-complement reduction of an integer to the `int64` range. -/
def wrap64 (x : Int) : Int :=
  (x + 9223372036854775808) % 18446744073709551616 - 9223372036854775808

/-- Truncated `int64` quotient of Go's `/` for a positive divisor. -/
def quo (a b : Int) : Int := Int.tdiv a b

/-- Truncated remainder of Go's `%`: the sign follows the dividend. -/
def rem (a b : Int) : Int := Int.tmod a b

/-- Seconds from year 1 to 1970: `unixToInternal`,
`(1969*365 + 1969/4 - 1969/100 + 1969/400) * 86400`. -/
def unixToInternal : Int := 62135596800

/-- The `Duration` of one second, in nanoseconds. -/
def Second : Int := 1000000000
/-- The smallest `Duration`, `-1 << 63`. -/
def minDuration : Int := -9223372036854775808
/-- The largest `Duration`, `1<<63 - 1`. -/
def maxDuration : Int := 9223372036854775807

/-- A `time.Time` without monotonic reading: `ext` holds the seconds since
year 1 and `nsec` the nanoseconds within the second. -/
structure Time where
  ext : Int
  nsec : Int
deriving DecidableEq, Repr

/-- Go `time.Unix(sec, 0)`. The sum is an `int64` sum and wraps. -/
def Unix (sec : Int) : Time := { ext := wrap64 (sec + unixToInternal), nsec := 0 }

/-- Go `addSec` on a time without monotonic reading: the sum saturates. -/
def Time.addSec (t : Time) (d : Int) : Time :=
  let sum := wrap64 (t.ext + d)
  if decide (sum > t.ext) = decide (d > 0) then { t with ext := sum }
  else if d > 0 then { t with ext := 9223372036854775807 }
  else { t with ext := -9223372036854775807 }

/-- Go `Time.Add`. -/
def Time.Add (t : Time) (d : Int) : Time :=
  let dsec := quo d 1000000000
  let nsec := t.nsec + rem d 1000000000
  if nsec ≥ 1000000000 then ({ t with nsec := nsec - 1000000000 } : Time).addSec (wrap64 (dsec + 1))
  else if nsec < 0 then ({ t with nsec := nsec + 1000000000 } : Time).addSec (wrap64 (dsec - 1))
  else ({ t with nsec := nsec } : Time).addSec dsec

/-- Go `Time.Equal` on times without monotonic reading. -/
def Time.Equal (t u : Time) : Bool := t.ext == u.ext && t.nsec == u.nsec

/-- Go `Time.Before` on times without monotonic reading. -/
def Time.Before (t u : Time) : Bool :=
  decide (t.ext < u.ext) || (t.ext == u.ext && decide (t.nsec < u.nsec))

/-- Go `Time.Sub`: the difference in nanoseconds as an `int64`, replaced by the
largest or smallest `Duration` when it does not fit. -/
def Time.Sub (t u : Time) : Int :=
  let d := wrap64 (wrap64 (wrap64 (t.ext - u.ext) * Second) + wrap64 (t.nsec - u.nsec))
  if (u.Add d).Equal t then d
  else if t.Before u then minDuration
  else maxDuration

/-- The byte of a decimal digit. -/
def digit (n : Nat) : Char :=
  match n with
  | 0 => '0' | 1 => '1' | 2 => '2' | 3 => '3' | 4 => '4'
  | 5 => '5' | 6 => '6' | 7 => '7' | 8 => '8' | _ => '9'

/-- The loop of `fmtFrac`: `prec` digits are taken off `v`; trailing zeros are
not written. Returns the buffer, the rest of `v` and the `print` flag. -/
def fmtFracLoop : Nat → List Char → Nat → Bool → List Char × Nat × Bool
  | 0, buf, v, print => (buf, v, print)
  | prec + 1, buf, v, print =>
    let d := v % 10
    let print := print || d != 0
    fmtFracLoop prec (if print then digit d :: buf else buf) (v / 10) print

/-- Go `fmtFrac`: writes the fraction of `v / 10^prec` in front of `buf` and
returns the new buffer with `v / 10^prec`. -/
def fmtFrac (buf : List Char) (v : Nat) (prec : Nat) : List Char × Nat :=
  let r := fmtFracLoop prec buf v false
  (if r.2.2 then '.' :: r.1 else r.1, r.2.1)

/-- The loop `for v > 0` of `fmtInt`; `fuel` bounds the number of rounds and
`fmtInt` passes `v` itself, more than the loop can use. -/
def fmtIntLoop : Nat → List Char → Nat → List Char
  | 0, buf, _ => buf
  | fuel + 1, buf, v => if v > 0 then fmtIntLoop fuel (digit (v % 10) :: buf) (v / 10) else buf

/-- Go `fmtInt`: writes `v` in decimal in front of `buf`. -/
def fmtInt (buf : List Char) (v : Nat) : List Char :=
  if v = 0 then '0' :: buf else fmtIntLoop v buf v

/-- Go `Duration.format` for the magnitude `u` of the duration, sign apart. -/
def formatAbs (u : Nat) : List Char :=
  if u < 1000000000 then
    if u = 0 then ['0', 's']
    else if u < 1000 then
      let r := fmtFrac ['n', 's'] u 0
      fmtInt r.1 r.2
    else if u < 1000000 then
      let r := fmtFrac ['µ', 's'] u 3
      fmtInt r.1 r.2
    else
      let r := fmtFrac ['m', 's'] u 6
      fmtInt r.1 r.2
  else
    let r := fmtFrac ['s'] u 9
    let buf := fmtInt r.1 (r.2 % 60)
    let u := r.2 / 60
    if u > 0 then
      let buf := fmtInt ('m' :: buf) (u % 60)
      let u := u / 60
      if u > 0 then fmtInt ('h' :: buf) u else buf
    else buf

/-- Go `Duration.String` of a duration of `d` nanoseconds. The magnitude is
formatted and a negative duration gets the sign in front. The definition reads
`d` as an integer, so that it also gives the text of a number of nanoseconds
outside the `int64` range of a `Duration`. -/
def Duration.String (d : Int) : String :=
  String.mk (if d < 0 then '-' :: formatAbs d.natAbs else formatAbs d.natAbs)

end time

/-! ## `strings.EqualFold` -/

namespace strings

/-- One round of `strings.EqualFold` on the runes `sr` and `tr`: equal runes
match, two ASCII runes match when they are the two cases of one letter, and a
pair with a non-ASCII rune is settled by walking the `unicode.SimpleFold` orbit
of the smaller rune. The Unicode tables are not part of the program: `orbit lo hi`
is the verdict of that walk. -/
def foldRune (orbit : Char → Char → Bool) (sr tr : Char) : Bool :=
  if tr = sr then true
  else
    let lo := if tr < sr then tr else sr
    let hi := if tr < sr then sr else tr
    if hi.toNat < 128 then
      decide (65 ≤ lo.toNat ∧ lo.toNat ≤ 90 ∧ hi.toNat = lo.toNat + 97 - 65)
    else orbit lo hi

/-- The loop of `strings.EqualFold` over the runes of both strings. -/
def equalFoldRunes (orbit : Char → Char → Bool) : List Char → List Char → Bool
  | [], [] => true
  | sr :: s, tr :: t => if foldRune orbit sr tr then equalFoldRunes orbit s t else false
  | _, _ => false

/-- Go `strings.EqualFold(s, t)`. -/
def EqualFold (orbit : Char → Char → Bool) (s t : String) : Bool :=
  equalFoldRunes orbit s.data t.data

end strings

/-! ## The constants of `github.com/go-vela/types/constants` -/

namespace constants

/-- The status of a pending resource. -/
def StatusPending : String := "pending"

/-- The status of a running resource. -/
def StatusRunning : String := "running"

end constants

/-! ## What the renderers take from outside the program -/

/-- The parts of the libraries that the program calls and that read data the
program does not hold: the Unicode case-folding tables, the library method
`Build.Duration` and `humanize.Time`, the last two reading the clock. -/
structure Env where
  /-- The verdict of the `unicode.SimpleFold` walk in `strings.EqualFold`. -/
  simpleFoldOrbit : Char → Char → Bool
  /-- The library method `(*library.Build).Duration`. -/
  buildDuration : library.Build → String
  /-- The function `humanize.Time` of `github.com/dustin/go-humanize`. -/
  humanizeTime : time.Time → String

/-! ## `github.com/gosuri/uitable` -/

namespace uitable

/-- An argument of `AddRow`: the renderers pass integers and strings. -/
inductive Cell where
  | int (n : Int)
  | str (s : String)
deriving DecidableEq, Repr

/-- The fields of `uitable.Table` the renderers set, and its rows. -/
structure Table where
  MaxColWidth : Nat
  Wrap : Bool
  Rows : List (List Cell)
deriving DecidableEq, Repr

/-- Go `uitable.New()`: a table without rows. -/
def New : Table := { MaxColWidth := 0, Wrap := false, Rows := [] }

/-- Go `(*Table).AddRow(data...)`: appends one row. -/
def Table.AddRow (t : Table) (data : List Cell) : Table :=
  { t with Rows := t.Rows ++ [data] }

end uitable

namespace build

/-- Go `reverse` of package `build`: sorts the builds by build number. -/
def reverse (b : List library.Build) : List library.Build :=
  sort.SliceStable b (fun x y => decide (x.GetNumber < y.GetNumber))

open uitable in
/-- Go `table` of package `build`: the table handed to `output.Stdout`. -/
def table (env : Env) (builds : List library.Build) : uitable.Table :=
  let table := uitable.New
  let table := { table with MaxColWidth := 50 }
  let table := { table with Wrap := true }
  let table := table.AddRow
    [Cell.str "NUMBER", Cell.str "STATUS", Cell.str "EVENT", Cell.str "BRANCH", Cell.str "DURATION"]
  (reverse builds).foldl
    (fun table b => table.AddRow
      [Cell.int b.GetNumber, Cell.str b.GetStatus, Cell.str b.GetEvent, Cell.str b.GetBranch,
        Cell.str (env.buildDuration b)])
    table

open uitable in
/-- Go `wideTable` of package `build`: the table handed to `output.Stdout`. -/
def wideTable (env : Env) (builds : List library.Build) : uitable.Table :=
  let table := uitable.New
  let table := { table with MaxColWidth := 200 }
  let table := { table with Wrap := true }
  let table := table.AddRow
    [Cell.str "NUMBER", Cell.str "STATUS", Cell.str "EVENT", Cell.str "BRANCH", Cell.str "COMMIT",
      Cell.str "DURATION", Cell.str "CREATED", Cell.str "FINISHED", Cell.str "AUTHOR"]
  (reverse builds).foldl
    (fun table b =>
      let c := env.humanizeTime (time.Unix b.GetCreated)
      let f := env.humanizeTime (time.Unix b.GetFinished)
      table.AddRow
        [Cell.int b.GetNumber, Cell.str b.GetStatus, Cell.str b.GetEvent, Cell.str b.GetBranch,
          Cell.str b.GetCommit, Cell.str (env.buildDuration b), Cell.str c, Cell.str f,
          Cell.str b.GetAuthor])
    table

end build

namespace step

/-- Go `duration`: the time a step ran for, in readable form. -/
def duration (env : Env) (s : library.Step) : String :=
  if strings.EqualFold env.simpleFoldOrbit s.GetStatus constants.StatusPending ||
      strings.EqualFold env.simpleFoldOrbit s.GetStatus constants.StatusRunning then
    "..."
  else
    let f := time.Unix s.GetFinished
    let st := time.Unix s.GetStarted
    let d := f.Sub st
    time.Duration.String d

/-- Go `reverse` of package `step`: sorts the steps by step number. -/
def reverse (s : List library.Step) : List library.Step :=
  sort.SliceStable s (fun x y => decide (x.GetNumber < y.GetNumber))

open uitable in
/-- Go `table` of package `step`: the table handed to `output.Stdout`. -/
def table (env : Env) (steps : List library.Step) : uitable.Table :=
  let table := uitable.New
  let table := { table with MaxColWidth := 50 }
  let table := { table with Wrap := true }
  let table := table.AddRow
    [Cell.str "NUMBER", Cell.str "NAME", Cell.str "STATUS", Cell.str "DURATION"]
  (reverse steps).foldl
    (fun table s =>
      let d := duration env s
      table.AddRow [Cell.int s.GetNumber, Cell.str s.GetName, Cell.str s.GetStatus, Cell.str d])
    table

open uitable in
/-- Go `wideTable` of package `step`: the table handed to `output.Stdout`. -/
def wideTable (env : Env) (steps : List library.Step) : uitable.Table :=
  let table := uitable.New
  let table := { table with MaxColWidth := 200 }
  let table := { table with Wrap := true }
  let table := table.AddRow
    [Cell.str "NUMBER", Cell.str "NAME", Cell.str "STATUS", Cell.str "DURATION",
      Cell.str "CREATED", Cell.str "FINISHED"]
  (reverse steps).foldl
    (fun table s =>
      let d := duration env s
      let c := env.humanizeTime (time.Unix s.GetCreated)
      let f := env.humanizeTime (time.Unix s.GetFinished)
      table.AddRow
        [Cell.int s.GetNumber, Cell.str s.GetName, Cell.str s.GetStatus, Cell.str d,
          Cell.str c, Cell.str f])
    table

end step

/-- A concrete environment for evaluating the renderers: no non-ASCII rune folds
to another, and the clock-reading helpers return fixed texts. -/
def sampleEnv : Env where
  simpleFoldOrbit := fun _ _ => false
  buildDuration := fun _ => "..."
  humanizeTime := fun _ => "now"

/-! ## Lemmas on the insertion sort -/

namespace sort

variable {α : Type}

theorem sink_perm (less : α → α → Bool) (x : α) (l : List α) : (sink less x l).Perm (x :: l) := by
  induction l with
  | nil => exact List.Perm.refl _
  | cons y ys ih =>
    unfold sink
    split
    · exact ((List.Perm.cons y ih).trans (List.Perm.swap x y ys))
    · exact List.Perm.refl _

theorem foldl_sink_perm (less : α → α → Bool) (l acc : List α) :
    (l.foldl (fun front x => sink less x front) acc).Perm (l ++ acc) := by
  induction l generalizing acc with
  | nil => exact List.Perm.refl _
  | cons x xs ih =>
    simp only [List.foldl_cons, List.cons_append]
    refine (ih (sink less x acc)).trans ?_
    refine (List.Perm.append_left xs (sink_perm less x acc)).trans ?_
    exact List.perm_middle

theorem SliceStable_perm (less : α → α → Bool) (l : List α) : (SliceStable l less).Perm l := by
  unfold SliceStable insertionSort
  refine (List.reverse_perm _).trans ?_
  simpa using foldl_sink_perm less l []

theorem sink_of_not_less (less : α → α → Bool) (x : α) (l : List α)
    (h : ∀ y ∈ l, less x y = false) : sink less x l = x :: l := by
  cases l with
  | nil => rfl
  | cons y ys =>
    unfold sink
    simp [h y (List.mem_cons_self y ys)]

/-- What `sink` keeps of a filter: the elements selected by `p` stay in their
order, the new element `x` at the right end, when `less` never holds between two
selected elements. -/
theorem filter_sink (less : α → α → Bool) (p : α → Bool)
    (hp : ∀ a b, p a = true → p b = true → less a b = false) (x : α) (l : List α) :
    (sink less x l).filter p = (x :: l).filter p := by
  induction l with
  | nil => rfl
  | cons y ys ih =>
    unfold sink
    split
    · rename_i hxy
      by_cases hx : p x = true
      · have hy : p y = false := by
          cases hpy : p y with
          | false => rfl
          | true => rw [hp x y hx hpy] at hxy; exact absurd hxy (by simp)
        rw [List.filter_cons_of_neg (by simp [hy]), ih]
        simp [List.filter_cons, hx, hy]
      · simp only [Bool.not_eq_true] at hx
        rw [List.filter_cons, ih]
        simp [List.filter_cons, hx]
    · rfl

theorem filter_foldl_sink (less : α → α → Bool) (p : α → Bool)
    (hp : ∀ a b, p a = true → p b = true → less a b = false) (l acc : List α) :
    (l.foldl (fun front x => sink less x front) acc).filter p
      = (l.filter p).reverse ++ acc.filter p := by
  induction l generalizing acc with
  | nil => simp
  | cons x xs ih =>
    simp only [List.foldl_cons]
    rw [ih, filter_sink less p hp]
    by_cases hx : p x = true
    · simp [List.filter_cons, hx]
    · simp only [Bool.not_eq_true] at hx
      simp [List.filter_cons, hx]

/-- Stability: for a class `p` of elements that `less` does not tell apart, the
elements of the class come out in the order they went in. -/
theorem filter_SliceStable (less : α → α → Bool) (p : α → Bool)
    (hp : ∀ a b, p a = true → p b = true → less a b = false) (l : List α) :
    (SliceStable l less).filter p = l.filter p := by
  unfold SliceStable insertionSort
  rw [List.filter_reverse, filter_foldl_sink less p hp]
  simp

theorem foldl_sink_of_sorted (less : α → α → Bool) (l acc : List α)
    (hacc : ∀ a ∈ acc, ∀ b ∈ l, less b a = false)
    (hl : l.Pairwise (fun a b => less b a = false)) :
    l.foldl (fun front x => sink less x front) acc = l.reverse ++ acc := by
  induction l generalizing acc with
  | nil => simp
  | cons x xs ih =>
    simp only [List.foldl_cons]
    rw [sink_of_not_less less x acc (fun y hy => hacc y hy x (List.mem_cons_self x xs))]
    rw [List.pairwise_cons] at hl
    rw [ih (x :: acc) ?_ hl.2]
    · simp
    · intro a ha b hb
      rcases List.mem_cons.mp ha with rfl | ha
      · exact hl.1 b hb
      · exact hacc a ha b (List.mem_cons_of_mem x hb)

/-- A slice already in order is left as it is. -/
theorem SliceStable_of_sorted (less : α → α → Bool) (l : List α)
    (hl : l.Pairwise (fun a b => less b a = false)) : SliceStable l less = l := by
  unfold SliceStable insertionSort
  rw [foldl_sink_of_sorted less l [] (by simp) hl]
  simp

theorem sink_sorted (less : α → α → Bool)
    (htrans : ∀ a b c, less a b = false → less b c = false → less a c = false)
    (htotal : ∀ a b, less a b = true → less b a = false)
    (x : α) (l : List α) (hl : l.Pairwise (fun a b => less a b = false)) :
    (sink less x l).Pairwise (fun a b => less a b = false) := by
  induction l with
  | nil => simp [sink]
  | cons y ys ih =>
    unfold sink
    rw [List.pairwise_cons] at hl
    split
    · rename_i hxy
      rw [List.pairwise_cons]
      refine ⟨?_, ih hl.2⟩
      intro b hb
      rcases List.mem_cons.mp ((sink_perm less x ys).mem_iff.mp hb) with rfl | hb
      · exact htotal _ _ hxy
      · exact hl.1 b hb
    · rename_i hxy
      simp only [Bool.not_eq_true] at hxy
      rw [List.pairwise_cons]
      refine ⟨?_, List.pairwise_cons.mpr hl⟩
      intro b hb
      rcases List.mem_cons.mp hb with rfl | hb
      · exact hxy
      · exact htrans _ _ _ hxy (hl.1 b hb)

theorem foldl_sink_sorted (less : α → α → Bool)
    (htrans : ∀ a b c, less a b = false → less b c = false → less a c = false)
    (htotal : ∀ a b, less a b = true → less b a = false)
    (l acc : List α) (hacc : acc.Pairwise (fun a b => less a b = false)) :
    (l.foldl (fun front x => sink less x front) acc).Pairwise
      (fun a b => less a b = false) := by
  induction l generalizing acc with
  | nil => simpa using hacc
  | cons x xs ih =>
    simp only [List.foldl_cons]
    exact ih _ (sink_sorted less htrans htotal x acc hacc)

/-- The result is in order: no element is `less` than one before it. -/
theorem SliceStable_sorted (less : α → α → Bool)
    (htrans : ∀ a b c, less a b = false → less b c = false → less a c = false)
    (htotal : ∀ a b, less a b = true → less b a = false) (l : List α) :
    (SliceStable l less).Pairwise (fun a b => less b a = false) := by
  unfold SliceStable insertionSort
  rw [List.pairwise_reverse]
  exact foldl_sink_sorted less htrans htotal l [] List.Pairwise.nil

/-! ### Sorting by an integer key, as both `reverse` helpers do -/

theorem byKey_perm (key : α → Int) (l : List α) : (SliceStable l (lessBy key)).Perm l :=
  SliceStable_perm (lessBy key) l

theorem byKey_sorted (key : α → Int) (l : List α) :
    (SliceStable l (lessBy key)).Pairwise (fun a b => key a ≤ key b) := by
  have h := SliceStable_sorted (lessBy key)
    (by intro a b c; simp only [lessBy, decide_eq_false_iff_not]; omega)
    (by intro a b; simp only [lessBy, decide_eq_false_iff_not, decide_eq_true_eq]; omega) l
  refine h.imp ?_
  intro a b
  simp only [lessBy, decide_eq_false_iff_not]
  omega

theorem byKey_filter (key : α → Int) (n : Int) (l : List α) :
    (SliceStable l (lessBy key)).filter (fun a => key a == n) = l.filter (fun a => key a == n) := by
  apply filter_SliceStable
  intro a b ha hb
  simp only [beq_iff_eq] at ha hb
  simp only [lessBy, decide_eq_false_iff_not]
  omega

theorem byKey_of_sorted (key : α → Int) (l : List α)
    (hl : l.Pairwise (fun a b => key a ≤ key b)) : SliceStable l (lessBy key) = l := by
  apply SliceStable_of_sorted
  refine hl.imp ?_
  intro a b
  simp only [lessBy, decide_eq_false_iff_not]
  omega

theorem byKey_idem (key : α → Int) (l : List α) :
    SliceStable (SliceStable l (lessBy key)) (lessBy key) = SliceStable l (lessBy key) :=
  byKey_of_sorted key _ (byKey_sorted key l)

theorem byKey_pair_sublist (key : α → Int) (l : List α) (x y : α) (hxy : key x = key y)
    (h : [x, y].Sublist l) : [x, y].Sublist (SliceStable l (lessBy key)) := by
  have h1 : ([x, y].filter (fun a => key a == key x)).Sublist
      (l.filter (fun a => key a == key x)) := h.filter _
  rw [← byKey_filter key (key x) l] at h1
  have h2 : [x, y].filter (fun a => key a == key x) = [x, y] := by
    simp [List.filter_cons, hxy]
  rw [h2] at h1
  exact h1.trans (List.filter_sublist _)

/-- Two lists in key order whose elements of every single key agree, in their
order, are the same list. -/
theorem eq_of_sorted_of_filter_eq (key : α → Int) (r r' : List α)
    (hr : r.Pairwise (fun a b => key a ≤ key b)) (hr' : r'.Pairwise (fun a b => key a ≤ key b))
    (h : ∀ n : Int, r.filter (fun a => key a == n) = r'.filter (fun a => key a == n)) :
    r = r' := by
  induction r generalizing r' with
  | nil =>
    cases r' with
    | nil => rfl
    | cons y ys =>
      have := h (key y)
      simp [List.filter_cons] at this
  | cons x xs ih =>
    cases r' with
    | nil =>
      have := h (key x)
      simp [List.filter_cons] at this
    | cons y ys =>
      rw [List.pairwise_cons] at hr hr'
      have hyx : key y ≤ key x := by
        have hmem : x ∈ (y :: ys).filter (fun a => key a == key x) := by
          rw [← h (key x)]; simp [List.filter_cons]
        rcases List.mem_cons.mp (List.mem_filter.mp hmem).1 with rfl | hx
        · exact le_refl _
        · exact hr'.1 x hx
      have hxy : key x ≤ key y := by
        have hmem : y ∈ (x :: xs).filter (fun a => key a == key y) := by
          rw [h (key y)]; simp [List.filter_cons]
        rcases List.mem_cons.mp (List.mem_filter.mp hmem).1 with rfl | hy
        · exact le_refl _
        · exact hr.1 y hy
      have hk : key y = key x := le_antisymm hyx hxy
      have h0 := h (key x)
      simp only [List.filter_cons, beq_self_eq_true, hk, if_true] at h0
      have hhead : x = y := (List.cons.inj h0).1
      subst hhead
      congr 1
      apply ih ys hr.2 hr'.2
      intro n
      have hn := h n
      by_cases hxn : key x = n
      · subst hxn; exact (List.cons.inj h0).2
      · simpa [List.filter_cons, hxn] using hn

/-- The stable sort by a key has one possible result: every list in key order
that keeps the elements of each key in their input order is the list computed
here. The merging routine the standard library uses for long slices, being a
stable sort, returns this same list. -/
theorem SliceStable_unique (key : α → Int) (l r : List α)
    (hr : r.Pairwise (fun a b => key a ≤ key b))
    (h : ∀ n : Int, r.filter (fun a => key a == n) = l.filter (fun a => key a == n)) :
    r = SliceStable l (lessBy key) := by
  apply eq_of_sorted_of_filter_eq key r _ hr (byKey_sorted key l)
  intro n
  rw [h n, byKey_filter]

/-- With no key occurring twice the result does not depend on the input order. -/
theorem byKey_eq_of_perm (key : α → Int) (l₁ l₂ : List α) (hp : l₁.Perm l₂)
    (hn : (l₁.map key).Nodup) : SliceStable l₁ (lessBy key) = SliceStable l₂ (lessBy key) := by
  have hperm : (SliceStable l₁ (lessBy key)).Perm (SliceStable l₂ (lessBy key)) :=
    (byKey_perm key l₁).trans (hp.trans (byKey_perm key l₂).symm)
  have hn₁ : ((SliceStable l₁ (lessBy key)).map key).Nodup :=
    (((byKey_perm key l₁).map key).nodup_iff).mpr hn
  have hn₂ : ((SliceStable l₂ (lessBy key)).map key).Nodup :=
    ((hperm.map key).nodup_iff).mp hn₁
  have strict : ∀ r : List α, r.Pairwise (fun a b => key a ≤ key b) → (r.map key).Nodup →
      r.Pairwise (fun a b => key a < key b) := by
    intro r h1 h2
    rw [List.Nodup, List.pairwise_map] at h2
    exact (h1.and h2).imp (fun ⟨hle, hne⟩ => lt_of_le_of_ne hle hne)
  have s₁ := strict _ (byKey_sorted key l₁) hn₁
  have s₂ := strict _ (byKey_sorted key l₂) hn₂
  haveI : IsAntisymm α (fun a b => key a < key b) :=
    ⟨fun a b h1 h2 => absurd h1 (not_lt.mpr (le_of_lt h2))⟩
  exact List.eq_of_perm_of_sorted hperm s₁ s₂

end sort

/-! ## Lemmas on the tables -/

namespace uitable

theorem foldl_AddRow_Rows {β : Type} (f : β → List Cell) (l : List β) (t : Table) :
    (l.foldl (fun table b => table.AddRow (f b)) t).Rows = t.Rows ++ l.map f := by
  induction l generalizing t with
  | nil => simp
  | cons x xs ih =>
    simp only [List.foldl_cons, List.map_cons]
    rw [ih]
    simp [Table.AddRow]

end uitable

theorem adjacent_of_pairwise {β : Type} {R : β → β → Prop} {l : List β} (h : l.Pairwise R)
    (i : Nat) (x y : β) (hx : l[i]? = some x) (hy : l[i + 1]? = some y) : R x y := by
  rw [List.getElem?_eq_some] at hx hy
  obtain ⟨hi, rfl⟩ := hx
  obtain ⟨hj, rfl⟩ := hy
  exact List.pairwise_iff_getElem.mp h i (i + 1) hi hj (Nat.lt_succ_self i)

theorem build_reverse_eq (b : List library.Build) :
    build.reverse b = sort.SliceStable b (sort.lessBy library.Build.GetNumber) := rfl

theorem step_reverse_eq (s : List library.Step) :
    step.reverse s = sort.SliceStable s (sort.lessBy library.Step.GetNumber) := rfl

theorem build_table_Rows (env : Env) (builds : List library.Build) :
    (build.table env builds).Rows =
      [uitable.Cell.str "NUMBER", uitable.Cell.str "STATUS", uitable.Cell.str "EVENT",
        uitable.Cell.str "BRANCH", uitable.Cell.str "DURATION"] ::
      (build.reverse builds).map (fun b =>
        [uitable.Cell.int b.GetNumber, uitable.Cell.str b.GetStatus, uitable.Cell.str b.GetEvent,
          uitable.Cell.str b.GetBranch, uitable.Cell.str (env.buildDuration b)]) := by
  unfold build.table
  simp only []
  rw [uitable.foldl_AddRow_Rows]
  simp [uitable.Table.AddRow, uitable.New]

theorem build_wideTable_Rows (env : Env) (builds : List library.Build) :
    (build.wideTable env builds).Rows =
      [uitable.Cell.str "NUMBER", uitable.Cell.str "STATUS", uitable.Cell.str "EVENT",
        uitable.Cell.str "BRANCH", uitable.Cell.str "COMMIT", uitable.Cell.str "DURATION",
        uitable.Cell.str "CREATED", uitable.Cell.str "FINISHED", uitable.Cell.str "AUTHOR"] ::
      (build.reverse builds).map (fun b =>
        [uitable.Cell.int b.GetNumber, uitable.Cell.str b.GetStatus, uitable.Cell.str b.GetEvent,
          uitable.Cell.str b.GetBranch, uitable.Cell.str b.GetCommit,
          uitable.Cell.str (env.buildDuration b),
          uitable.Cell.str (env.humanizeTime (time.Unix b.GetCreated)),
          uitable.Cell.str (env.humanizeTime (time.Unix b.GetFinished)),
          uitable.Cell.str b.GetAuthor]) := by
  unfold build.wideTable
  simp only []
  rw [uitable.foldl_AddRow_Rows]
  simp [uitable.Table.AddRow, uitable.New]

theorem step_table_Rows (env : Env) (steps : List library.Step) :
    (step.table env steps).Rows =
      [uitable.Cell.str "NUMBER", uitable.Cell.str "NAME", uitable.Cell.str "STATUS",
        uitable.Cell.str "DURATION"] ::
      (step.reverse steps).map (fun s =>
        [uitable.Cell.int s.GetNumber, uitable.Cell.str s.GetName, uitable.Cell.str s.GetStatus,
          uitable.Cell.str (step.duration env s)]) := by
  unfold step.table
  simp only []
  rw [uitable.foldl_AddRow_Rows]
  simp [uitable.Table.AddRow, uitable.New]

theorem step_wideTable_Rows (env : Env) (steps : List library.Step) :
    (step.wideTable env steps).Rows =
      [uitable.Cell.str "NUMBER", uitable.Cell.str "NAME", uitable.Cell.str "STATUS",
        uitable.Cell.str "DURATION", uitable.Cell.str "CREATED", uitable.Cell.str "FINISHED"] ::
      (step.reverse steps).map (fun s =>
        [uitable.Cell.int s.GetNumber, uitable.Cell.str s.GetName, uitable.Cell.str s.GetStatus,
          uitable.Cell.str (step.duration env s),
          uitable.Cell.str (env.humanizeTime (time.Unix s.GetCreated)),
          uitable.Cell.str (env.humanizeTime (time.Unix s.GetFinished))]) := by
  unfold step.wideTable
  simp only []
  rw [uitable.foldl_AddRow_Rows]
  simp [uitable.Table.AddRow, uitable.New]

/-! ## The claims on `reverse` -/

/-- C1: for every list of builds and every list of steps, `reverse` returns a
permutation of its input (the elements themselves, no field changed) of the same
length, in non-decreasing number order: the numbers at adjacent positions `i`,
`i + 1` of the result satisfy `result[i].GetNumber ≤ result[i+1].GetNumber`. -/
theorem reverse_perm_ascending :
    (∀ b : List library.Build,
      (build.reverse b).Perm b ∧ (build.reverse b).length = b.length ∧
      ∀ (i : Nat) (x y : library.Build), (build.reverse b)[i]? = some x →
        (build.reverse b)[i + 1]? = some y → x.GetNumber ≤ y.GetNumber) ∧
    (∀ s : List library.Step,
      (step.reverse s).Perm s ∧ (step.reverse s).length = s.length ∧
      ∀ (i : Nat) (x y : library.Step), (step.reverse s)[i]? = some x →
        (step.reverse s)[i + 1]? = some y → x.GetNumber ≤ y.GetNumber) := by
  constructor
  · intro b
    rw [build_reverse_eq]
    refine ⟨sort.byKey_perm _ b, (sort.byKey_perm _ b).length_eq, ?_⟩
    intro i x y hx hy
    exact adjacent_of_pairwise (sort.byKey_sorted library.Build.GetNumber b) i x y hx hy
  · intro s
    rw [step_reverse_eq]
    refine ⟨sort.byKey_perm _ s, (sort.byKey_perm _ s).length_eq, ?_⟩
    intro i x y hx hy
    exact adjacent_of_pairwise (sort.byKey_sorted library.Step.GetNumber s) i x y hx hy

/-- Witness of C1: in the result for the builds 3, 1, 2 the builds at the
positions 0 and 1 are the builds 1 and 2. -/
theorem reverse_perm_ascending_witness :
    (build.reverse [{ Number := some 3 }, { Number := some 1 }, { Number := some 2 }])[0]?
        = some { Number := some 1 } ∧
      (build.reverse [{ Number := some 3 }, { Number := some 1 }, { Number := some 2 }])[0 + 1]?
        = some { Number := some 2 } ∧
      library.Build.GetNumber { Number := some 1 } ≤ library.Build.GetNumber { Number := some 2 } :=
  ⟨by decide, by decide,
    (reverse_perm_ascending.1 [{ Number := some 3 }, { Number := some 1 }, { Number := some 2 }]).2.2
      0 { Number := some 1 } { Number := some 2 } (by decide) (by decide)⟩

/-- C2: `reverse` is stable. For every list of builds (of steps) and two
elements `x`, `y` with the same `GetNumber` (an unset number reads as 0), if `x`
comes before `y` in the input then `x` comes before `y` in the result; more
precisely, for every number the elements with that number come out in the order
in which they went in. -/
theorem reverse_stable :
    (∀ b : List library.Build,
      (∀ n : Int, (build.reverse b).filter (fun x => x.GetNumber == n)
        = b.filter (fun x => x.GetNumber == n)) ∧
      ∀ x y : library.Build, x.GetNumber = y.GetNumber →
        [x, y].Sublist b → [x, y].Sublist (build.reverse b)) ∧
    (∀ s : List library.Step,
      (∀ n : Int, (step.reverse s).filter (fun x => x.GetNumber == n)
        = s.filter (fun x => x.GetNumber == n)) ∧
      ∀ x y : library.Step, x.GetNumber = y.GetNumber →
        [x, y].Sublist s → [x, y].Sublist (step.reverse s)) :=
  ⟨fun b => ⟨fun n => sort.byKey_filter library.Build.GetNumber n b,
      fun x y hxy h => sort.byKey_pair_sublist library.Build.GetNumber b x y hxy h⟩,
   fun s => ⟨fun n => sort.byKey_filter library.Step.GetNumber n s,
      fun x y hxy h => sort.byKey_pair_sublist library.Step.GetNumber s x y hxy h⟩⟩

/-- Witness of C2: a build without number before a build with number 0, both
between builds of other numbers. -/
theorem reverse_stable_witness :
    library.Build.GetNumber { Status := some "first" }
        = library.Build.GetNumber { Number := some 0, Status := some "second" } ∧
      [({ Status := some "first" } : library.Build),
          { Number := some 0, Status := some "second" }].Sublist
        [{ Number := some 5 }, { Status := some "first" },
          { Number := some 0, Status := some "second" }, { Number := some (-1) }] ∧
      [({ Status := some "first" } : library.Build),
          { Number := some 0, Status := some "second" }].Sublist
        (build.reverse [{ Number := some 5 }, { Status := some "first" },
          { Number := some 0, Status := some "second" }, { Number := some (-1) }]) :=
  ⟨by decide, by decide,
    (reverse_stable.1
      [{ Number := some 5 }, { Status := some "first" },
        { Number := some 0, Status := some "second" }, { Number := some (-1) }]).2
      { Status := some "first" } { Number := some 0, Status := some "second" }
      (by decide) (by decide)⟩

/-- C3: `reverse` is idempotent: `reverse (reverse x) = reverse x` for every
list of builds and every list of steps. -/
theorem reverse_idempotent :
    (∀ b : List library.Build, build.reverse (build.reverse b) = build.reverse b) ∧
    (∀ s : List library.Step, step.reverse (step.reverse s) = step.reverse s) :=
  ⟨fun b => sort.byKey_idem library.Build.GetNumber b,
   fun s => sort.byKey_idem library.Step.GetNumber s⟩

/-- C10, the code at the claim's input: for the builds 1, 2 (and the steps 1, 2),
in either input order, `reverse` returns number 1 first and number 2 last, and
the narrow build table lists build 1 above build 2. The list is in ascending
order; no flip takes place. -/
theorem reverse_result_ascending_not_flipped :
    build.reverse [{ Number := some 1 }, { Number := some 2 }]
        = [{ Number := some 1 }, { Number := some 2 }] ∧
      build.reverse [{ Number := some 2 }, { Number := some 1 }]
        = [{ Number := some 1 }, { Number := some 2 }] ∧
      step.reverse [{ Number := some 1 }, { Number := some 2 }]
        = [{ Number := some 1 }, { Number := some 2 }] ∧
      step.reverse [{ Number := some 2 }, { Number := some 1 }]
        = [{ Number := some 1 }, { Number := some 2 }] ∧
      (build.table sampleEnv [{ Number := some 1 }, { Number := some 2 }]).Rows.map List.head?
        = [some (uitable.Cell.str "NUMBER"), some (uitable.Cell.int 1),
            some (uitable.Cell.int 2)] := by
  decide

/-! ## The claims on the tables -/

/-- C7: for every list of builds the rows of the narrow build table are the
header row `NUMBER STATUS EVENT BRANCH DURATION` followed by one row per build,
the builds taken in ascending number order (a permutation of the input, sorted),
each row holding the number, status, event, branch and duration of its build.
For the input [build 2, build 1] the row of build 1 precedes the row of build 2. -/
theorem build_table_rows_ascending (env : Env) :
    (∀ builds : List library.Build, ∃ ordered : List library.Build,
      ordered.Perm builds ∧
      ordered.Pairwise (fun x y => x.GetNumber ≤ y.GetNumber) ∧
      (build.table env builds).Rows =
        [uitable.Cell.str "NUMBER", uitable.Cell.str "STATUS", uitable.Cell.str "EVENT",
          uitable.Cell.str "BRANCH", uitable.Cell.str "DURATION"] ::
        ordered.map (fun b =>
          [uitable.Cell.int b.GetNumber, uitable.Cell.str b.GetStatus,
            uitable.Cell.str b.GetEvent, uitable.Cell.str b.GetBranch,
            uitable.Cell.str (env.buildDuration b)])) ∧
    (∀ b₁ b₂ : library.Build, b₁.GetNumber = 1 → b₂.GetNumber = 2 →
      (build.table env [b₂, b₁]).Rows =
        [[uitable.Cell.str "NUMBER", uitable.Cell.str "STATUS", uitable.Cell.str "EVENT",
            uitable.Cell.str "BRANCH", uitable.Cell.str "DURATION"],
          [uitable.Cell.int 1, uitable.Cell.str b₁.GetStatus, uitable.Cell.str b₁.GetEvent,
            uitable.Cell.str b₁.GetBranch, uitable.Cell.str (env.buildDuration b₁)],
          [uitable.Cell.int 2, uitable.Cell.str b₂.GetStatus, uitable.Cell.str b₂.GetEvent,
            uitable.Cell.str b₂.GetBranch, uitable.Cell.str (env.buildDuration b₂)]]) := by
  constructor
  · intro builds
    exact ⟨build.reverse builds, sort.byKey_perm _ builds,
      sort.byKey_sorted library.Build.GetNumber builds, build_table_Rows env builds⟩
  · intro b₁ b₂ h₁ h₂
    rw [build_table_Rows]
    have hrev : build.reverse [b₂, b₁] = [b₁, b₂] := by
      simp [build.reverse, sort.SliceStable, sort.insertionSort, sort.sink, h₁, h₂]
    rw [hrev]
    simp [h₁, h₂]

/-- Witness of C7: a successful push build 2 on `main` listed before a failed
tag build 1. -/
theorem build_table_rows_ascending_witness :
    library.Build.GetNumber { Number := some 1, Status := some "failure", Event := some "tag" } = 1 ∧
      library.Build.GetNumber
        { Number := some 2, Status := some "success", Event := some "push", Branch := some "main" } = 2 ∧
      (build.table sampleEnv
        [{ Number := some 2, Status := some "success", Event := some "push", Branch := some "main" },
          { Number := some 1, Status := some "failure", Event := some "tag" }]).Rows =
        [[uitable.Cell.str "NUMBER", uitable.Cell.str "STATUS", uitable.Cell.str "EVENT",
            uitable.Cell.str "BRANCH", uitable.Cell.str "DURATION"],
          [uitable.Cell.int 1, uitable.Cell.str "failure", uitable.Cell.str "tag",
            uitable.Cell.str "", uitable.Cell.str "..."],
          [uitable.Cell.int 2, uitable.Cell.str "success", uitable.Cell.str "push",
            uitable.Cell.str "main", uitable.Cell.str "..."]] :=
  ⟨by decide, by decide,
    (build_table_rows_ascending sampleEnv).2
      { Number := some 1, Status := some "failure", Event := some "tag" }
      { Number := some 2, Status := some "success", Event := some "push", Branch := some "main" }
      (by decide) (by decide)⟩

/-- C8, counterexample: the header row of the wide step table has six columns,
neither 8 nor 9, and no author column. -/
theorem step_wideTable_header_counterexample :
    (step.wideTable sampleEnv []).Rows.head? =
        some [uitable.Cell.str "NUMBER", uitable.Cell.str "NAME", uitable.Cell.str "STATUS",
          uitable.Cell.str "DURATION", uitable.Cell.str "CREATED", uitable.Cell.str "FINISHED"] ∧
      ¬ ((step.wideTable sampleEnv []).Rows.head?.map List.length = some 8 ∨
          (step.wideTable sampleEnv []).Rows.head?.map List.length = some 9) ∧
      ¬ (∃ header, (step.wideTable sampleEnv []).Rows.head? = some header ∧
          uitable.Cell.str "AUTHOR" ∈ header) := by
  refine ⟨by decide, by decide, ?_⟩
  rintro ⟨header, hh, hmem⟩
  have h0 : (step.wideTable sampleEnv []).Rows.head? =
      some [uitable.Cell.str "NUMBER", uitable.Cell.str "NAME", uitable.Cell.str "STATUS",
        uitable.Cell.str "DURATION", uitable.Cell.str "CREATED", uitable.Cell.str "FINISHED"] := by
    decide
  rw [h0] at hh
  cases hh
  revert hmem
  decide

/-- C8, amended: for every list of builds and of steps the narrow header has 5
columns for builds and 4 for steps; the wide build header has 9 columns, with
CREATED, FINISHED and AUTHOR; the wide step header has 6 columns, with CREATED
and FINISHED and without an author column. -/
theorem table_headers (env : Env) (builds : List library.Build) (steps : List library.Step) :
    (build.table env builds).Rows.head? =
        some [uitable.Cell.str "NUMBER", uitable.Cell.str "STATUS", uitable.Cell.str "EVENT",
          uitable.Cell.str "BRANCH", uitable.Cell.str "DURATION"] ∧
      (build.table env builds).Rows.head?.map List.length = some 5 ∧
      (step.table env steps).Rows.head? =
        some [uitable.Cell.str "NUMBER", uitable.Cell.str "NAME", uitable.Cell.str "STATUS",
          uitable.Cell.str "DURATION"] ∧
      (step.table env steps).Rows.head?.map List.length = some 4 ∧
      (build.wideTable env builds).Rows.head? =
        some [uitable.Cell.str "NUMBER", uitable.Cell.str "STATUS", uitable.Cell.str "EVENT",
          uitable.Cell.str "BRANCH", uitable.Cell.str "COMMIT", uitable.Cell.str "DURATION",
          uitable.Cell.str "CREATED", uitable.Cell.str "FINISHED", uitable.Cell.str "AUTHOR"] ∧
      (build.wideTable env builds).Rows.head?.map List.length = some 9 ∧
      (step.wideTable env steps).Rows.head? =
        some [uitable.Cell.str "NUMBER", uitable.Cell.str "NAME", uitable.Cell.str "STATUS",
          uitable.Cell.str "DURATION", uitable.Cell.str "CREATED", uitable.Cell.str "FINISHED"] ∧
      (step.wideTable env steps).Rows.head?.map List.length = some 6 := by
  rw [build_table_Rows, step_table_Rows, build_wideTable_Rows, step_wideTable_Rows]
  simp

/-- C9, counterexample: two builds with the same number and different status, in
the two possible orders, are permutations of one another and give narrow tables
whose rows differ. -/
theorem table_order_counterexample :
    List.Perm
        [({ Number := some 1, Status := some "failure" } : library.Build),
          { Number := some 1, Status := some "success" }]
        [{ Number := some 1, Status := some "success" },
          { Number := some 1, Status := some "failure" }] ∧
      (build.table sampleEnv
        [{ Number := some 1, Status := some "failure" },
          { Number := some 1, Status := some "success" }]).Rows ≠
      (build.table sampleEnv
        [{ Number := some 1, Status := some "success" },
          { Number := some 1, Status := some "failure" }]).Rows :=
  ⟨List.Perm.swap _ _ [], by decide⟩

/-- C9, amended: for two lists of builds (of steps) that are permutations of one
another and in which no number occurs twice, the narrow table and the wide table
have the same rows for both lists. -/
theorem table_rows_of_perm (env : Env) :
    (∀ l₁ l₂ : List library.Build, l₁.Perm l₂ → (l₁.map library.Build.GetNumber).Nodup →
      (build.table env l₁).Rows = (build.table env l₂).Rows ∧
      (build.wideTable env l₁).Rows = (build.wideTable env l₂).Rows) ∧
    (∀ l₁ l₂ : List library.Step, l₁.Perm l₂ → (l₁.map library.Step.GetNumber).Nodup →
      (step.table env l₁).Rows = (step.table env l₂).Rows ∧
      (step.wideTable env l₁).Rows = (step.wideTable env l₂).Rows) := by
  constructor
  · intro l₁ l₂ hp hn
    have h : build.reverse l₁ = build.reverse l₂ :=
      sort.byKey_eq_of_perm library.Build.GetNumber l₁ l₂ hp hn
    rw [build_table_Rows, build_table_Rows, build_wideTable_Rows, build_wideTable_Rows, h]
    exact ⟨rfl, rfl⟩
  · intro l₁ l₂ hp hn
    have h : step.reverse l₁ = step.reverse l₂ :=
      sort.byKey_eq_of_perm library.Step.GetNumber l₁ l₂ hp hn
    rw [step_table_Rows, step_table_Rows, step_wideTable_Rows, step_wideTable_Rows, h]
    exact ⟨rfl, rfl⟩

/-- Witness of C9 amended: the builds 2, 1 and the builds 1, 2. -/
theorem table_rows_of_perm_witness :
    List.Perm [({ Number := some 2 } : library.Build), { Number := some 1 }]
        [{ Number := some 1 }, { Number := some 2 }] ∧
      (List.map library.Build.GetNumber [{ Number := some 2 }, { Number := some 1 }]).Nodup ∧
      (build.table sampleEnv [{ Number := some 2 }, { Number := some 1 }]).Rows =
        (build.table sampleEnv [{ Number := some 1 }, { Number := some 2 }]).Rows ∧
      (build.wideTable sampleEnv [{ Number := some 2 }, { Number := some 1 }]).Rows =
        (build.wideTable sampleEnv [{ Number := some 1 }, { Number := some 2 }]).Rows :=
  ⟨List.Perm.swap _ _ [], by decide,
    (table_rows_of_perm sampleEnv).1 [{ Number := some 2 }, { Number := some 1 }]
      [{ Number := some 1 }, { Number := some 2 }] (List.Perm.swap _ _ []) (by decide)⟩

/-! ## Lemmas on `strings.EqualFold` -/

namespace strings

/-- A rune folds to its ASCII lower-case form, whatever the Unicode tables say. -/
theorem foldRune_toLower (orbit : Char → Char → Bool) (c : Char) :
    foldRune orbit c c.toLower = true := by
  by_cases hc : c.toNat ≥ 65 ∧ c.toNat ≤ 90
  · obtain ⟨h1, h2⟩ := hc
    have hcn : c = Char.ofNat c.toNat := (Char.ofNat_toNat c).symm
    generalize c.toNat = n at h1 h2 hcn
    subst hcn
    interval_cases n <;> rfl
  · have : c.toLower = c := by
      unfold Char.toLower; simp only [hc, if_false]
    rw [this]
    simp [foldRune]

theorem equalFoldRunes_toLower (orbit : Char → Char → Bool) (l : List Char) :
    equalFoldRunes orbit l (l.map Char.toLower) = true := by
  induction l with
  | nil => rfl
  | cons c cs ih =>
    simp only [List.map_cons, equalFoldRunes, foldRune_toLower, if_true, ih]

/-- A string whose ASCII lower-casing is `t` is equal to `t` under folding. -/
theorem EqualFold_of_toLower (orbit : Char → Char → Bool) (s t : String)
    (h : s.data.map Char.toLower = t.data) : EqualFold orbit s t = true := by
  unfold EqualFold
  rw [← h]
  exact equalFoldRunes_toLower orbit s.data

end strings

/-! ## Lemmas on the `time` package -/

namespace time

theorem wrap64_of_range (x : Int) (h1 : -9223372036854775808 ≤ x)
    (h2 : x ≤ 9223372036854775807) : wrap64 x = x := by
  unfold wrap64; omega

/-- The `Time.Sub` of two `time.Unix` values is the exact difference in nanoseconds
when the difference fits a `Duration` and `time.Unix` wraps for both or for
neither of the two timestamps. -/
theorem Sub_Unix_exact (f st : Int)
    (hrange : -9223372036 ≤ f - st ∧ f - st ≤ 9223372036)
    (hf : -9223372036854775808 ≤ f ∧ f ≤ 9223372036854775807)
    (hst : -9223372036854775808 ≤ st ∧ st ≤ 9223372036854775807)
    (hside : (f ≤ 9223371974719179007 ∧ st ≤ 9223371974719179007) ∨
      (9223371974719179007 < f ∧ 9223371974719179007 < st)) :
    (Unix f).Sub (Unix st) = (f - st) * 1000000000 := by
  have hd : wrap64 (wrap64 (f + unixToInternal) - wrap64 (st + unixToInternal)) = f - st := by
    unfold wrap64 unixToInternal; omega
  have hm : wrap64 ((f - st) * 1000000000) = (f - st) * 1000000000 := by
    apply wrap64_of_range <;> omega
  have hq : quo ((f - st) * 1000000000) 1000000000 = f - st :=
    Int.mul_tdiv_cancel _ (by decide)
  have hr : rem ((f - st) * 1000000000) 1000000000 = 0 := Int.mul_tmod_left _ _
  have hsum : wrap64 (wrap64 (st + unixToInternal) + (f - st)) = wrap64 (f + unixToInternal) := by
    unfold wrap64 unixToInternal; omega
  have hcmp : decide (wrap64 (f + unixToInternal) > wrap64 (st + unixToInternal))
      = decide (f - st > 0) := by
    have : wrap64 (f + unixToInternal) > wrap64 (st + unixToInternal) ↔ f - st > 0 := by
      unfold wrap64 unixToInternal; omega
    simp only [this]
  have hz : wrap64 (0 - 0) = 0 := by decide
  unfold Time.Sub
  simp only [Unix, Second, hd, hm, hz, add_zero]
  unfold Time.Add
  simp only [hq, hr, add_zero]
  rw [if_neg (by decide : ¬ (0 : Int) ≥ 1000000000), if_neg (by decide : ¬ (0 : Int) < 0)]
  unfold Time.addSec
  simp only [hsum, hcmp, if_true, Time.Equal, beq_self_eq_true, Bool.and_self]

/-- A time minus itself is the zero duration, for every timestamp. -/
theorem Sub_Unix_self (x : Int) : (Unix x).Sub (Unix x) = 0 := by
  have hz : wrap64 0 = 0 := by decide
  have hq : quo 0 1000000000 = 0 := by decide
  have hr : rem 0 1000000000 = 0 := by decide
  have hidem : wrap64 (wrap64 (x + unixToInternal) + 0) = wrap64 (x + unixToInternal) := by
    unfold wrap64; omega
  unfold Time.Sub
  simp only [Unix, Second, sub_self, hz, zero_mul, add_zero]
  unfold Time.Add
  simp only [hq, hr, add_zero]
  rw [if_neg (by decide : ¬ (0 : Int) ≥ 1000000000), if_neg (by decide : ¬ (0 : Int) < 0)]
  unfold Time.addSec
  simp only [hidem, gt_iff_lt, lt_self_iff_false, if_true, Time.Equal, beq_self_eq_true,
    Bool.and_self]

/-- Why the two timestamps have to lie on one side of 9223371974719179007: the
sum in `time.Unix` wraps above it. One second later than that bound is read as
the smallest `Duration`, and the largest `int64` minus itself less 90 seconds,
both beyond the bound, is the exact 90 seconds. -/
theorem Sub_Unix_across_wrap :
    (Unix 9223371974719179008).Sub (Unix 9223371974719179007) = minDuration ∧
      (Unix 9223372036854775807).Sub (Unix 9223372036854775717) = 90 * 1000000000 := by
  decide

/-- The loop of `fmtInt` never stops for lack of fuel: any two amounts of fuel
of at least `v` give the same digits, so the text is the one of the Go loop. -/
theorem fmtIntLoop_fuel (fuel₁ fuel₂ : Nat) (buf : List Char) (v : Nat)
    (h₁ : v ≤ fuel₁) (h₂ : v ≤ fuel₂) : fmtIntLoop fuel₁ buf v = fmtIntLoop fuel₂ buf v := by
  induction fuel₁ generalizing fuel₂ buf v with
  | zero =>
    have hv : v = 0 := by omega
    subst hv
    cases fuel₂ with
    | zero => rfl
    | succ m => simp [fmtIntLoop]
  | succ n ih =>
    cases fuel₂ with
    | zero =>
      have hv : v = 0 := by omega
      subst hv
      simp [fmtIntLoop]
    | succ m =>
      unfold fmtIntLoop
      split
      · exact ih m _ _ (by omega) (by omega)
      · rfl

theorem fmtIntLoop_suffix (fuel : Nat) (buf : List Char) (v : Nat) :
    buf <:+ fmtIntLoop fuel buf v := by
  induction fuel generalizing buf v with
  | zero => exact List.suffix_refl _
  | succ n ih =>
    unfold fmtIntLoop
    split
    · exact (List.suffix_cons _ _).trans (ih _ _)
    · exact List.suffix_refl _

theorem fmtInt_suffix (buf : List Char) (v : Nat) : buf <:+ fmtInt buf v := by
  unfold fmtInt
  split
  · exact List.suffix_cons _ _
  · exact fmtIntLoop_suffix _ _ _

theorem fmtFracLoop_suffix (prec : Nat) (buf : List Char) (v : Nat) (print : Bool) :
    buf <:+ (fmtFracLoop prec buf v print).1 := by
  induction prec generalizing buf v print with
  | zero => exact List.suffix_refl _
  | succ n ih =>
    unfold fmtFracLoop
    simp only []
    split
    · exact (List.suffix_cons _ _).trans (ih _ _ _)
    · exact ih _ _ _

theorem fmtFrac_suffix (buf : List Char) (v prec : Nat) : buf <:+ (fmtFrac buf v prec).1 := by
  unfold fmtFrac
  simp only []
  split
  · exact (fmtFracLoop_suffix _ _ _ _).trans (List.suffix_cons _ _)
  · exact fmtFracLoop_suffix _ _ _ _

/-- Every formatted duration ends in the unit letter `s`. -/
theorem formatAbs_suffix (u : Nat) : ['s'] <:+ formatAbs u := by
  have hs : ∀ c : Char, ['s'] <:+ [c, 's'] := fun c => List.suffix_cons c ['s']
  unfold formatAbs
  simp only []
  split
  · split
    · exact hs _
    · split
      · exact (hs _).trans ((fmtFrac_suffix _ _ _).trans (fmtInt_suffix _ _))
      · split
        · exact (hs _).trans ((fmtFrac_suffix _ _ _).trans (fmtInt_suffix _ _))
        · exact (hs _).trans ((fmtFrac_suffix _ _ _).trans (fmtInt_suffix _ _))
  · have h1 : ['s'] <:+ fmtInt (fmtFrac ['s'] u 9).1 ((fmtFrac ['s'] u 9).2 % 60) :=
      (fmtFrac_suffix _ _ _).trans (fmtInt_suffix _ _)
    split
    · have h2 := h1.trans ((List.suffix_cons 'm' _).trans
        (fmtInt_suffix ('m' :: fmtInt (fmtFrac ['s'] u 9).1 ((fmtFrac ['s'] u 9).2 % 60))
          ((fmtFrac ['s'] u 9).2 / 60 % 60)))
      split
      · exact h2.trans ((List.suffix_cons 'h' _).trans (fmtInt_suffix _ _))
      · exact h2
    · exact h1

theorem String_suffix (d : Int) : ['s'] <:+ (Duration.String d).data := by
  unfold Duration.String
  simp only []
  split
  · exact (formatAbs_suffix _).trans (List.suffix_cons _ _)
  · exact formatAbs_suffix _

/-- A formatted duration is neither the placeholder nor the empty string. -/
theorem String_ne (d : Int) : Duration.String d ≠ "..." ∧ Duration.String d ≠ "" := by
  have h := String_suffix d
  constructor
  · intro he
    rw [he] at h
    revert h
    decide
  · intro he
    rw [he] at h
    revert h
    decide

/-- The text of a negative duration is `-` followed by the text of its opposite. -/
theorem String_neg (d : Int) (h : 0 < d) : Duration.String (-d) = "-" ++ Duration.String d := by
  unfold Duration.String
  have h1 : -d < 0 := by omega
  have h2 : ¬ d < 0 := by omega
  simp only [h1, h2, if_true, if_false, Int.natAbs_neg]
  rfl

end time

/-! ## The claims on `duration` -/

theorem step_duration_of_guard_false (env : Env) (s : library.Step)
    (hp : strings.EqualFold env.simpleFoldOrbit s.GetStatus constants.StatusPending = false)
    (hr : strings.EqualFold env.simpleFoldOrbit s.GetStatus constants.StatusRunning = false) :
    step.duration env s
      = time.Duration.String ((time.Unix s.GetFinished).Sub (time.Unix s.GetStarted)) := by
  unfold step.duration
  simp [hp, hr]

/-- C4: for every step whose status is equal to "pending" or to "running" under
`strings.EqualFold`, and so for every status whose ASCII lower-casing is one of
the two words ("Pending", "RUNNING", ...), `duration` returns the placeholder
"..." whatever the started and finished timestamps of the step are. -/
theorem duration_placeholder (env : Env) (s : library.Step) :
    ((strings.EqualFold env.simpleFoldOrbit s.GetStatus constants.StatusPending = true ∨
        strings.EqualFold env.simpleFoldOrbit s.GetStatus constants.StatusRunning = true) →
      step.duration env s = "...") ∧
    ((s.GetStatus.data.map Char.toLower = "pending".data ∨
        s.GetStatus.data.map Char.toLower = "running".data) →
      step.duration env s = "...") := by
  have main : (strings.EqualFold env.simpleFoldOrbit s.GetStatus constants.StatusPending = true ∨
      strings.EqualFold env.simpleFoldOrbit s.GetStatus constants.StatusRunning = true) →
      step.duration env s = "..." := by
    intro h
    unfold step.duration
    rcases h with h | h
    · simp [h]
    · simp [h]
  refine ⟨main, ?_⟩
  intro h
  apply main
  rcases h with h | h
  · exact Or.inl (strings.EqualFold_of_toLower _ _ _ h)
  · exact Or.inr (strings.EqualFold_of_toLower _ _ _ h)

/-- Witness of C4: a step "Pending" with a negative started time and no finished
time, and a step "RUNNING" with finished before started. -/
theorem duration_placeholder_witness :
    (strings.EqualFold sampleEnv.simpleFoldOrbit
        (library.Step.GetStatus { Status := some "Pending", Started := some (-5) })
        constants.StatusPending = true ∧
      step.duration sampleEnv { Status := some "Pending", Started := some (-5) } = "...") ∧
    ((library.Step.GetStatus
        { Status := some "RUNNING", Started := some 7, Finished := some 0 }).data.map Char.toLower
        = "running".data ∧
      step.duration sampleEnv { Status := some "RUNNING", Started := some 7, Finished := some 0 }
        = "...") :=
  ⟨⟨by decide,
      (duration_placeholder sampleEnv { Status := some "Pending", Started := some (-5) }).1
        (Or.inl (by decide))⟩,
    ⟨by decide,
      (duration_placeholder sampleEnv
        { Status := some "RUNNING", Started := some 7, Finished := some 0 }).2
        (Or.inr (by decide))⟩⟩

/-- C5, counterexample: a successful step started at second 0 and finished at
second 10000000000. `duration` returns the text of the largest `Duration`,
"2562047h47m16.854775807s"; the text of the true difference of 10000000000
seconds is "2777777h46m40s". -/
theorem duration_exact_counterexample :
    strings.EqualFold sampleEnv.simpleFoldOrbit "success" constants.StatusPending = false ∧
      strings.EqualFold sampleEnv.simpleFoldOrbit "success" constants.StatusRunning = false ∧
      step.duration sampleEnv
        { Status := some "success", Started := some 0, Finished := some 10000000000 }
        = "2562047h47m16.854775807s" ∧
      time.Duration.String ((10000000000 - 0) * 1000000000) = "2777777h46m40s" ∧
      step.duration sampleEnv
        { Status := some "success", Started := some 0, Finished := some 10000000000 }
        ≠ time.Duration.String ((10000000000 - 0) * 1000000000) := by
  decide

/-- C5, amended: for every step whose status is neither "pending" nor "running"
and whose 64-bit timestamps differ by at most 9223372036 seconds in either
direction, both timestamps being at most 9223371974719179007 or both larger,
`duration` returns the text of exactly `finished - started` seconds. -/
theorem duration_exact_in_range (env : Env) (s : library.Step)
    (hp : strings.EqualFold env.simpleFoldOrbit s.GetStatus constants.StatusPending = false)
    (hr : strings.EqualFold env.simpleFoldOrbit s.GetStatus constants.StatusRunning = false)
    (hst : -9223372036854775808 ≤ s.GetStarted ∧ s.GetStarted ≤ 9223372036854775807)
    (hf : -9223372036854775808 ≤ s.GetFinished ∧ s.GetFinished ≤ 9223372036854775807)
    (hrange : -9223372036 ≤ s.GetFinished - s.GetStarted ∧
      s.GetFinished - s.GetStarted ≤ 9223372036)
    (hside : (s.GetFinished ≤ 9223371974719179007 ∧ s.GetStarted ≤ 9223371974719179007) ∨
      (9223371974719179007 < s.GetFinished ∧ 9223371974719179007 < s.GetStarted)) :
    step.duration env s
      = time.Duration.String ((s.GetFinished - s.GetStarted) * 1000000000) := by
  rw [step_duration_of_guard_false env s hp hr,
    time.Sub_Unix_exact s.GetFinished s.GetStarted hrange hf hst hside]

/-- Witness of C5 amended: started 0, finished 90 gives "1m30s". -/
theorem duration_exact_in_range_witness :
    step.duration sampleEnv { Status := some "success", Started := some 0, Finished := some 90 }
        = time.Duration.String
            ((library.Step.GetFinished
                { Status := some "success", Started := some 0, Finished := some 90 }
              - library.Step.GetStarted
                { Status := some "success", Started := some 0, Finished := some 90 })
              * 1000000000) ∧
      time.Duration.String ((90 - 0) * 1000000000) = "1m30s" :=
  ⟨duration_exact_in_range sampleEnv
      { Status := some "success", Started := some 0, Finished := some 90 }
      (by decide) (by decide) (by decide) (by decide) (by decide) (by decide),
    by decide⟩

/-- C6, counterexample: a successful step started at second 10000000000 and
finished at second 0. `duration` returns the text of the smallest `Duration`,
"-2562047h47m16.854775808s", which is not "-" followed by the
"2562047h47m16.854775807s" returned with started and finished swapped. -/
theorem duration_negative_counterexample :
    strings.EqualFold sampleEnv.simpleFoldOrbit "success" constants.StatusPending = false ∧
      strings.EqualFold sampleEnv.simpleFoldOrbit "success" constants.StatusRunning = false ∧
      step.duration sampleEnv
        { Status := some "success", Started := some 10000000000, Finished := some 0 }
        = "-2562047h47m16.854775808s" ∧
      step.duration sampleEnv
        { Status := some "success", Started := some 0, Finished := some 10000000000 }
        = "2562047h47m16.854775807s" ∧
      step.duration sampleEnv
        { Status := some "success", Started := some 10000000000, Finished := some 0 }
        ≠ "-" ++ step.duration sampleEnv
            { Status := some "success", Started := some 0, Finished := some 10000000000 } := by
  decide

/-- C6, amended: for every step whose status is neither "pending" nor "running",
`duration` returns "0s" when finished equals started (both unset included); it
never returns the placeholder or the empty string; and when finished is before
started by at most 9223372036 seconds, both 64-bit timestamps being at most
9223371974719179007 or both larger, it returns "-" followed by the string it
returns for the same step with started and finished swapped. -/
theorem duration_zero_negative (env : Env) (s : library.Step)
    (hp : strings.EqualFold env.simpleFoldOrbit s.GetStatus constants.StatusPending = false)
    (hr : strings.EqualFold env.simpleFoldOrbit s.GetStatus constants.StatusRunning = false) :
    (s.GetFinished = s.GetStarted → step.duration env s = "0s") ∧
    (step.duration env s ≠ "..." ∧ step.duration env s ≠ "") ∧
    (s.GetFinished < s.GetStarted → s.GetStarted - s.GetFinished ≤ 9223372036 →
      (-9223372036854775808 ≤ s.GetStarted ∧ s.GetStarted ≤ 9223372036854775807) →
      (-9223372036854775808 ≤ s.GetFinished ∧ s.GetFinished ≤ 9223372036854775807) →
      ((s.GetFinished ≤ 9223371974719179007 ∧ s.GetStarted ≤ 9223371974719179007) ∨
        (9223371974719179007 < s.GetFinished ∧ 9223371974719179007 < s.GetStarted)) →
      step.duration env s
        = "-" ++ step.duration env { s with Started := s.Finished, Finished := s.Started }) := by
  refine ⟨?_, ?_, ?_⟩
  · intro h
    rw [step_duration_of_guard_false env s hp hr, h, time.Sub_Unix_self]
    decide
  · rw [step_duration_of_guard_false env s hp hr]
    exact time.String_ne _
  · intro hlt hle hst hf hside
    have hswap := step_duration_of_guard_false env
      { s with Started := s.Finished, Finished := s.Started } hp hr
    have e1 : library.Step.GetFinished { s with Started := s.Finished, Finished := s.Started }
        = s.GetStarted := rfl
    have e2 : library.Step.GetStarted { s with Started := s.Finished, Finished := s.Started }
        = s.GetFinished := rfl
    rw [hswap, e1, e2, step_duration_of_guard_false env s hp hr,
      time.Sub_Unix_exact s.GetFinished s.GetStarted (by omega) hf hst hside,
      time.Sub_Unix_exact s.GetStarted s.GetFinished (by omega) hst hf
        (by rcases hside with h | h
            · exact Or.inl ⟨h.2, h.1⟩
            · exact Or.inr ⟨h.2, h.1⟩)]
    have hneg : (s.GetFinished - s.GetStarted) * 1000000000
        = -((s.GetStarted - s.GetFinished) * 1000000000) := by ring
    rw [hneg]
    exact time.String_neg _ (by omega)

/-- Witness of C6 amended: a successful step without timestamps gives "0s", and
started 90, finished 0 gives "-1m30s", "-" before the "1m30s" of the swapped
step. -/
theorem duration_zero_negative_witness :
    (library.Step.GetFinished { Status := some "success" }
        = library.Step.GetStarted { Status := some "success" } ∧
      step.duration sampleEnv { Status := some "success" } = "0s") ∧
    (step.duration sampleEnv { Status := some "success", Started := some 90, Finished := some 0 }
        = "-" ++ step.duration sampleEnv
            { Status := some "success", Started := some 0, Finished := some 90 } ∧
      step.duration sampleEnv { Status := some "success", Started := some 90, Finished := some 0 }
        = "-1m30s") :=
  ⟨⟨by decide,
      (duration_zero_negative sampleEnv { Status := some "success" } (by decide) (by decide)).1
        (by decide)⟩,
    ⟨(duration_zero_negative sampleEnv
        { Status := some "success", Started := some 90, Finished := some 0 }
        (by decide) (by decide)).2.2
        (by decide) (by decide) (by decide) (by decide) (by decide),
      by decide⟩⟩
